/-
Verification of the array deque implementation in aadeque.h.

The deque is a struct { cap, off, len, els[cap] } where `els` is a circular
buffer: logical index i lives at physical slot off+i, wrapped past cap.
Sizes and indices (AADEQUE_SIZE_T) are modeled as unbounded naturals; the
C type is a 32-bit unsigned int, and none of the properties below involve
states anywhere near the wraparound of that type (the single place where
unsigned wraparound could be observed at small values, aadeque_idx on an
out-of-range argument, is discussed at its definition).  The element array
is modeled as a total function `Nat → α`, so reads and writes outside the
allocated block are representable and can be talked about explicitly.
`AADEQUE_MIN_CAPACITY` is left at its default, 4, as in test.c; the macros
AADEQUE_CLEAR_UNUSED_MEM and AADEQUE_HEADER are not defined (the default
configuration, also used by test.c), so the corresponding #ifdef-ed code
is absent.  Allocation itself (malloc/realloc/free, the OOM path) is not
modeled: realloc keeps the contents of the old block, which the memory
function represents directly.
-/
import Mathlib

/-- AADEQUE_MIN_CAPACITY, default value 4. -/
def MIN_CAPACITY : Nat := 4

/-- struct aadeque: capacity, offset of the first element, length, and the
element array, modeled as a total function from physical slot to value. -/
structure Aadeque (α : Type) where
  cap : Nat
  off : Nat
  len : Nat
  els : Nat → α

variable {α : Type}

/-- aadeque_idx: convert external index i to internal one: off + i, reduced
by cap once if it reached cap.  Faithful to the C for off + i below 2^32
(no unsigned wraparound); every use in this file is far below that. -/
def aadeque_idx (a : Aadeque α) (i : Nat) : Nat :=
  if a.cap ≤ a.off + i then a.off + i - a.cap else a.off + i

/-- aadeque_get: read the element at logical index i. -/
def aadeque_get (a : Aadeque α) (i : Nat) : α :=
  a.els (aadeque_idx a i)

/-- aadeque_set: replace the element at logical index i. -/
def aadeque_set (a : Aadeque α) (i : Nat) (v : α) : Aadeque α :=
  { a with els := fun j => if j = aadeque_idx a i then v else a.els j }

/-- aadeque_create: cap = len (the power-of-two rounding loop is commented
out in the source), floored at MIN_CAPACITY; off = 0.  The len undefined
values are modeled as `default`. -/
def aadeque_create [Inhabited α] (len : Nat) : Aadeque α :=
  { cap := if len < MIN_CAPACITY then MIN_CAPACITY else len
    off := 0
    len := len
    els := fun _ => default }

/-- aadeque_create_empty: aadeque_create 0. -/
def aadeque_create_empty [Inhabited α] : Aadeque α :=
  aadeque_create (α := α) 0

/-- aadeque_from_array: create n and memcpy the n values into els[0..n). -/
def aadeque_from_array [Inhabited α] (xs : List α) (n : Nat) : Aadeque α :=
  { (aadeque_create n : Aadeque α) with
    els := fun j => if j < n then xs.getD j default else default }

/-- Body of the do-while loop in aadeque_reserve, in while-loop form:
double cap while cap < need.  Structural recursion on a fuel argument;
`growLoop` supplies fuel `need`, which is enough whenever cap is positive
(each iteration at least increments cap), matching the C loop, which does
not terminate for cap = 0 — unreachable, since cap ≥ MIN_CAPACITY. -/
def growLoopAux : Nat → Nat → Nat → Nat
  | 0, cap, _ => cap
  | fuel + 1, cap, need => if cap < need then growLoopAux fuel (2 * cap) need else cap

/-- The capacity-doubling loop of aadeque_reserve: double cap while cap < need. -/
def growLoop (cap need : Nat) : Nat :=
  growLoopAux need cap need

/-- The new capacity chosen by aadeque_reserve when it grows: the do-while
doubles at least once, then keeps doubling while cap < len + n. -/
def reserveCap (a : Aadeque α) (n : Nat) : Nat :=
  growLoop (2 * a.cap) (a.len + n)

/-- aadeque_reserve: if cap < len + n, grow cap by doubling, and if the
live region wrapped around the old capacity, memcpy (cap - oldcap)
elements from els[off] to els[off + cap - oldcap] and add cap - oldcap to
off.  The memcpy count (cap - oldcap) is taken verbatim from the source;
see the C1 theorem for the slots it writes. -/
def aadeque_reserve (a : Aadeque α) (n : Nat) : Aadeque α :=
  if a.cap < a.len + n then
    if a.cap < a.off + a.len then
      { cap := reserveCap a n
        off := a.off + (reserveCap a n - a.cap)
        len := a.len
        els := fun j =>
          if a.off + (reserveCap a n - a.cap) ≤ j ∧
              j < a.off + (reserveCap a n - a.cap) + (reserveCap a n - a.cap)
          then a.els (j - (reserveCap a n - a.cap))
          else a.els j }
    else
      { a with cap := reserveCap a n }
  else a

/-- Physical slots written by the relocation memcpy in aadeque_reserve, as
(first slot, number of slots): dest = els[off + cap - oldcap], count =
cap - oldcap, exactly as in the source; (0, 0) when no memcpy runs. -/
def aadeque_reserve_writes (a : Aadeque α) (n : Nat) : Nat × Nat :=
  if a.cap < a.len + n then
    if a.cap < a.off + a.len then
      (a.off + (reserveCap a n - a.cap), reserveCap a n - a.cap)
    else (0, 0)
  else (0, 0)

/-- Body of the do-while loop in aadeque_compact_to, in while-loop form:
halve cap while cap ≥ dmc and cap > MIN_CAPACITY.  Fuel-based structural
recursion; `shrinkLoop` supplies fuel `cap`, enough since cap strictly
decreases while above MIN_CAPACITY > 0. -/
def shrinkLoopAux : Nat → Nat → Nat → Nat
  | 0, cap, _ => cap
  | fuel + 1, cap, dmc =>
      if dmc ≤ cap ∧ MIN_CAPACITY < cap then shrinkLoopAux fuel (cap / 2) dmc else cap

/-- The capacity-halving loop of aadeque_compact_to. -/
def shrinkLoop (cap dmc : Nat) : Nat :=
  shrinkLoopAux cap cap dmc

/-- The new capacity chosen by aadeque_compact_to when it shrinks:
repeatedly halve while cap ≥ doublemincap (= 2 * mincap) and cap >
MIN_CAPACITY; the guard of the outer if equals the loop condition, so the
do-while equals the while loop. -/
def compactCap (a : Aadeque α) (mincap : Nat) : Nat :=
  shrinkLoop a.cap (2 * mincap)

/-- aadeque_compact_to: if cap ≥ 2 * mincap and cap > MIN_CAPACITY, halve
the capacity (repeatedly) and move the content according to the four
layout cases of the source (wrapped; entirely above the new cap; straddles
the new cap; entirely below). -/
def aadeque_compact_to (a : Aadeque α) (mincap : Nat) : Aadeque α :=
  if 2 * mincap ≤ a.cap ∧ MIN_CAPACITY < a.cap then
    if a.cap < a.off + a.len then
      -- wrapped around the old cap: memcpy(els[off + cap - oldcap], els[off],
      -- oldcap - off), then off += cap - oldcap
      { cap := compactCap a mincap
        off := a.off + compactCap a mincap - a.cap
        len := a.len
        els := fun j =>
          if a.off + compactCap a mincap - a.cap ≤ j ∧
              j < a.off + compactCap a mincap - a.cap + (a.cap - a.off)
          then a.els (j - (a.off + compactCap a mincap - a.cap) + a.off)
          else a.els j }
    else if compactCap a mincap ≤ a.off then
      -- whole content above the new cap, in one piece: memcpy(els[0],
      -- els[off], len), off = 0
      { cap := compactCap a mincap
        off := 0
        len := a.len
        els := fun j => if j < a.len then a.els (a.off + j) else a.els j }
    else if compactCap a mincap < a.off + a.len then
      -- content overflows the new cap: memcpy(els[0], els[cap],
      -- off + len - cap), off unchanged — region wraps afterwards
      { cap := compactCap a mincap
        off := a.off
        len := a.len
        els := fun j =>
          if j < a.off + a.len - compactCap a mincap
          then a.els (compactCap a mincap + j)
          else a.els j }
    else
      { a with cap := compactCap a mincap }
  else a

/-- aadeque_compact_some: compact_to(a, len << 1). -/
def aadeque_compact_some (a : Aadeque α) : Aadeque α :=
  aadeque_compact_to a (2 * a.len)

/-- aadeque_compact: compact_to(a, len). -/
def aadeque_compact (a : Aadeque α) : Aadeque α :=
  aadeque_compact_to a a.len

/-- aadeque_make_space_after: reserve n, then len += n. -/
def aadeque_make_space_after (a : Aadeque α) (n : Nat) : Aadeque α :=
  let b := aadeque_reserve a n
  { b with len := b.len + n }

/-- aadeque_make_space_before: reserve n, then off = idx(cap - n), len += n. -/
def aadeque_make_space_before (a : Aadeque α) (n : Nat) : Aadeque α :=
  let b := aadeque_reserve a n
  { b with off := aadeque_idx b (b.cap - n), len := b.len + n }

/-- aadeque_crop: keep length elements starting at logical index offset
(off = idx(offset), len = length), then compact_some. -/
def aadeque_crop (a : Aadeque α) (offset length : Nat) : Aadeque α :=
  aadeque_compact_some { a with off := aadeque_idx a offset, len := length }

/-- aadeque_delete_last_n: crop(0, len - n). -/
def aadeque_delete_last_n (a : Aadeque α) (n : Nat) : Aadeque α :=
  aadeque_crop a 0 (a.len - n)

/-- aadeque_delete_first_n: crop(n, len - n). -/
def aadeque_delete_first_n (a : Aadeque α) (n : Nat) : Aadeque α :=
  aadeque_crop a n (a.len - n)

/-- aadeque_unshift: make_space_before 1, then els[off] = value. -/
def aadeque_unshift (a : Aadeque α) (v : α) : Aadeque α :=
  let b := aadeque_make_space_before a 1
  { b with els := fun j => if j = b.off then v else b.els j }

/-- aadeque_shift: value = els[off]; crop(1, len - 1); return both. -/
def aadeque_shift (a : Aadeque α) : α × Aadeque α :=
  (a.els a.off, aadeque_crop a 1 (a.len - 1))

/-- aadeque_push: make_space_after 1, then els[idx(len - 1)] = value. -/
def aadeque_push (a : Aadeque α) (v : α) : Aadeque α :=
  let b := aadeque_make_space_after a 1
  { b with els := fun j => if j = aadeque_idx b (b.len - 1) then v else b.els j }

/-- aadeque_pop: value = els[idx(len - 1)]; crop(0, len - 1); return both. -/
def aadeque_pop (a : Aadeque α) : α × Aadeque α :=
  (a.els (aadeque_idx a (a.len - 1)), aadeque_crop a 0 (a.len - 1))

/-- The copy loop shared by aadeque_append and aadeque_prepend:
for j in [0, m), set(dst, i0 + j, get(src, j)). -/
def copyFrom (src dst : Aadeque α) (i0 : Nat) : Nat → Aadeque α
  | 0 => dst
  | j + 1 => aadeque_set (copyFrom src dst i0 j) (i0 + j) (aadeque_get src j)

/-- aadeque_append: make room after, then copy a2's elements to logical
indices a1.len, a1.len + 1, ... (i starts at the pre-growth length). -/
def aadeque_append (a1 a2 : Aadeque α) : Aadeque α :=
  copyFrom a2 (aadeque_make_space_after a1 a2.len) a1.len a2.len

/-- aadeque_prepend: make room before, then copy a2's elements to logical
indices 0, 1, ... (i starts at 0). -/
def aadeque_prepend (a1 a2 : Aadeque α) : Aadeque α :=
  copyFrom a2 (aadeque_make_space_before a1 a2.len) 0 a2.len

/-- The copy loop of aadeque_slice: for i in [0, length),
set(b, i, get(a, i + offset)). -/
def sliceLoop (a b : Aadeque α) (offset : Nat) : Nat → Aadeque α
  | 0 => b
  | j + 1 => aadeque_set (sliceLoop a b offset j) j (aadeque_get a (j + offset))

/-- aadeque_slice: create(length), then copy the elements over. -/
def aadeque_slice [Inhabited α] (a : Aadeque α) (offset length : Nat) : Aadeque α :=
  sliceLoop a (aadeque_create length) offset length

/-- The logical contents of a deque: get(0), ..., get(len - 1). -/
def aadeque_toList (a : Aadeque α) : List α :=
  (List.range a.len).map (fun i => aadeque_get a i)

/-- The data-model invariants of the spec: capacity is a power of two and
at least MIN_CAPACITY, length at most capacity, offset below capacity. -/
def AadequeInv (a : Aadeque α) : Prop :=
  (∃ k, a.cap = 2 ^ k) ∧ MIN_CAPACITY ≤ a.cap ∧ a.len ≤ a.cap ∧ a.off < a.cap

/-! Concrete states used by the scenario theorems and the witnesses below. -/

/-- The wrapped state reached by push 4, push 5, unshift 3, unshift 2 from the
empty deque: cap 4, off 2, len 4, physical slots [4, 5, 2, 3], so the next
unshift forces a grow of the wrapped region. -/
def dequeWrap4 : Aadeque Nat :=
  { cap := 4, off := 2, len := 4, els := fun j => [4, 5, 2, 3].getD j 0 }

/-- The deque of test_grow_warping: push 4, push 5, then unshift 3, 2, 1. -/
def dequeC2 : Aadeque Nat :=
  aadeque_unshift (aadeque_unshift (aadeque_unshift
    (aadeque_push (aadeque_push (aadeque_create_empty : Aadeque Nat) 4) 5) 3) 2) 1

/-- A deque of [1, 2, 3, 4, 5] with capacity 8 and offset 0 (other slots hold
garbage 0). -/
def deque15 : Aadeque Nat :=
  { cap := 8, off := 0, len := 5, els := fun j => if j < 5 then j + 1 else 0 }

/-- The state of test_shrink_case_1 before compacting: from_array [2,3,4,5],
unshift 1, delete the last 2 elements. -/
def dequeC5 : Aadeque Nat :=
  aadeque_delete_last_n (aadeque_unshift (aadeque_from_array [2, 3, 4, 5] 4) 1) 2

/-- The state of test_shrink_case_3 before compacting, starting from the
capacity-8 deque of [1..5] (which from_array no longer produces, see C3):
delete the first 2 elements. -/
def dequeC6 : Aadeque Nat :=
  aadeque_delete_first_n deque15 2

/-- A valid deque with capacity 16 and length 8, for the shrink-threshold witness. -/
def dequeC7 : Aadeque Nat :=
  { cap := 16, off := 0, len := 8, els := fun _ => 0 }

/-- An empty valid deque with capacity 4, on which aadeque_idx 8 lands outside
the block. -/
def dequeIdx : Aadeque Nat :=
  { cap := 4, off := 0, len := 0, els := fun _ => 0 }

/-- A valid deque with capacity 16 holding a single element. -/
def dequeC10 : Aadeque Nat :=
  { cap := 16, off := 0, len := 1, els := fun _ => 7 }

/-- The deque of [1, 2, 3] built like the append test does. -/
def a1C9 : Aadeque Nat := aadeque_from_array [1, 2, 3] 3

/-- The deque of [4, 5] built like the append test does. -/
def a2C9 : Aadeque Nat := aadeque_from_array [4, 5] 2

/-! Helper lemmas about the capacity loops. -/

lemma growLoopAux_spec :
    ∀ fuel cap need, 0 < cap → need ≤ cap + fuel →
      cap ≤ growLoopAux fuel cap need ∧ need ≤ growLoopAux fuel cap need ∧
        ∃ k, growLoopAux fuel cap need = cap * 2 ^ k := by
  intro fuel
  induction fuel with
  | zero =>
    intro cap need hc hn
    exact ⟨le_refl _, by simpa [growLoopAux] using hn, 0, by simp [growLoopAux]⟩
  | succ f ih =>
    intro cap need hc hn
    simp only [growLoopAux]
    split
    · next h =>
      obtain ⟨h1, h2, k, hk⟩ := ih (2 * cap) need (by omega) (by omega)
      exact ⟨by omega, h2, k + 1, by rw [hk]; ring⟩
    · next h =>
      exact ⟨le_refl _, by omega, 0, by simp⟩

lemma growLoop_spec (cap need : Nat) (hc : 0 < cap) :
    cap ≤ growLoop cap need ∧ need ≤ growLoop cap need ∧
      ∃ k, growLoop cap need = cap * 2 ^ k :=
  growLoopAux_spec need cap need hc (by omega)

lemma pow2_gt_four {k : Nat} (h : 4 < 2 ^ k) : 8 ≤ 2 ^ k := by
  match k with
  | 0 => simp at h
  | 1 => simp at h
  | 2 => simp at h
  | j + 3 =>
    calc (8 : Nat) = 2 ^ 3 := by norm_num
    _ ≤ 2 ^ (j + 3) := Nat.pow_le_pow_right (by norm_num) (by omega)

lemma shrinkLoopAux_spec :
    ∀ fuel cap dmc, (∃ k, cap = 2 ^ k) → MIN_CAPACITY ≤ cap → cap ≤ fuel →
      (∃ j, shrinkLoopAux fuel cap dmc * 2 ^ j = cap) ∧
        MIN_CAPACITY ≤ shrinkLoopAux fuel cap dmc ∧
        shrinkLoopAux fuel cap dmc ≤ cap ∧
        (∃ k, shrinkLoopAux fuel cap dmc = 2 ^ k) ∧
        (shrinkLoopAux fuel cap dmc < dmc ∨ shrinkLoopAux fuel cap dmc = MIN_CAPACITY) := by
  intro fuel
  induction fuel with
  | zero =>
    intro cap dmc hp hm hf
    simp only [MIN_CAPACITY] at hm
    omega
  | succ f ih =>
    intro cap dmc hp hm hf
    simp only [shrinkLoopAux]
    split
    · next h =>
      obtain ⟨k, hk⟩ := hp
      have h8 : 8 ≤ cap := by
        have := pow2_gt_four (k := k) (by simp only [MIN_CAPACITY] at h; omega)
        omega
      obtain ⟨k', hk'⟩ : ∃ k', k = k' + 1 := by
        rcases k with _ | k'
        · simp [hk] at h8
        · exact ⟨k', rfl⟩
      have hhalf : cap / 2 = 2 ^ k' := by
        subst hk'
        rw [hk, pow_succ]
        omega
      have hmul : cap / 2 * 2 = cap := by
        rw [hk, hk', pow_succ]
        omega
      obtain ⟨⟨j, hj⟩, ihm, ihle, ihp, ihexit⟩ :=
        ih (cap / 2) dmc ⟨k', hhalf⟩ (by simp only [MIN_CAPACITY] at *; omega) (by omega)
      refine ⟨⟨j + 1, ?_⟩, ihm, by omega, ihp, ihexit⟩
      rw [pow_succ, ← Nat.mul_assoc, hj, hmul]
    · next h =>
      simp only [MIN_CAPACITY] at *
      exact ⟨⟨0, by simp⟩, hm, le_refl _, hp, by omega⟩

lemma shrinkLoop_spec (cap dmc : Nat) (hp : ∃ k, cap = 2 ^ k) (hm : MIN_CAPACITY ≤ cap) :
    (∃ j, shrinkLoop cap dmc * 2 ^ j = cap) ∧
      MIN_CAPACITY ≤ shrinkLoop cap dmc ∧
      shrinkLoop cap dmc ≤ cap ∧
      (∃ k, shrinkLoop cap dmc = 2 ^ k) ∧
      (shrinkLoop cap dmc < dmc ∨ shrinkLoop cap dmc = MIN_CAPACITY) :=
  shrinkLoopAux_spec cap cap dmc hp hm (le_refl _)

lemma shrinkLoop_lt (cap dmc : Nat) (hp : ∃ k, cap = 2 ^ k) (h1 : dmc ≤ cap)
    (h2 : MIN_CAPACITY < cap) : shrinkLoop cap dmc < cap := by
  obtain ⟨k, hk⟩ := hp
  have h8 : 8 ≤ cap := by
    have := pow2_gt_four (k := k) (by simp only [MIN_CAPACITY] at h2; omega)
    omega
  obtain ⟨f, hf⟩ : ∃ f, cap = f + 1 := ⟨cap - 1, by omega⟩
  have step : shrinkLoop cap dmc = shrinkLoopAux f (cap / 2) dmc := by
    unfold shrinkLoop
    conv_lhs => rw [show shrinkLoopAux cap cap dmc = shrinkLoopAux (f + 1) cap dmc by rw [← hf]]
    simp only [shrinkLoopAux]
    rw [if_pos ⟨h1, h2⟩]
  obtain ⟨k', hk'⟩ : ∃ k', k = k' + 1 := by
    rcases k with _ | k'
    · simp [hk] at h8
    · exact ⟨k', rfl⟩
  have hhalf : cap / 2 = 2 ^ k' := by
    subst hk'
    rw [hk, pow_succ]
    omega
  have := (shrinkLoopAux_spec f (cap / 2) dmc ⟨k', hhalf⟩
    (by simp only [MIN_CAPACITY] at *; omega) (by omega)).2.2.1
  omega

/-! Helper lemmas about compact_to, idx, get and set. -/

lemma compact_to_cap (a : Aadeque α) (m : Nat) :
    (aadeque_compact_to a m).cap =
      if 2 * m ≤ a.cap ∧ MIN_CAPACITY < a.cap then shrinkLoop a.cap (2 * m) else a.cap := by
  unfold aadeque_compact_to compactCap
  split_ifs <;> rfl

lemma compact_to_len (a : Aadeque α) (m : Nat) :
    (aadeque_compact_to a m).len = a.len := by
  unfold aadeque_compact_to
  split_ifs <;> rfl

lemma crop_cap (a : Aadeque α) (o l : Nat) :
    (aadeque_crop a o l).cap =
      if 4 * l ≤ a.cap ∧ MIN_CAPACITY < a.cap then shrinkLoop a.cap (4 * l) else a.cap := by
  unfold aadeque_crop aadeque_compact_some
  rw [compact_to_cap]
  norm_num
  rw [show 2 * (2 * l) = 4 * l by ring]

lemma aadeque_idx_lt (a : Aadeque α) (i : Nat) (hoff : a.off < a.cap) (hi : i < a.cap) :
    aadeque_idx a i < a.cap := by
  unfold aadeque_idx
  split <;> omega

lemma aadeque_get_set (a : Aadeque α) (i k : Nat) (v : α) (hi : i < a.len) (hk : k < a.len)
    (hlen : a.len ≤ a.cap) (hoff : a.off < a.cap) :
    aadeque_get (aadeque_set a i v) k = if k = i then v else aadeque_get a k := by
  unfold aadeque_get aadeque_set aadeque_idx
  dsimp only
  split_ifs <;> first | rfl | omega

lemma copyFrom_cap (src dst : Aadeque α) (i0 : Nat) :
    ∀ m, (copyFrom src dst i0 m).cap = dst.cap ∧ (copyFrom src dst i0 m).off = dst.off ∧
      (copyFrom src dst i0 m).len = dst.len := by
  intro m
  induction m with
  | zero => exact ⟨rfl, rfl, rfl⟩
  | succ j ih => simpa [copyFrom, aadeque_set] using ih

lemma copyFrom_get (src dst : Aadeque α) (i0 : Nat) (hlen : dst.len ≤ dst.cap)
    (hoff : dst.off < dst.cap) :
    ∀ m, i0 + m ≤ dst.len → ∀ k, k < dst.len →
      aadeque_get (copyFrom src dst i0 m) k =
        if i0 ≤ k ∧ k < i0 + m then aadeque_get src (k - i0) else aadeque_get dst k := by
  intro m
  induction m with
  | zero =>
    intro hm k hk
    rw [if_neg (by omega)]
    rfl
  | succ j ih =>
    intro hm k hk
    obtain ⟨hc, ho, hl⟩ := copyFrom_cap src dst i0 j
    have hset := aadeque_get_set (copyFrom src dst i0 j) (i0 + j) k (aadeque_get src j)
      (by omega) (by omega) (by omega) (by omega)
    rw [show copyFrom src dst i0 (j + 1) =
      aadeque_set (copyFrom src dst i0 j) (i0 + j) (aadeque_get src j) from rfl, hset]
    by_cases hkj : k = i0 + j
    · rw [if_pos hkj, if_pos (by omega)]
      subst hkj
      rw [show i0 + j - i0 = j by omega]
    · rw [if_neg hkj, ih (by omega) k hk]
      by_cases hin : i0 ≤ k ∧ k < i0 + j
      · rw [if_pos hin, if_pos (by omega)]
      · rw [if_neg hin, if_neg (by omega)]

/-! Helper lemmas about aadeque_reserve and the space-making functions. -/

lemma reserveCap_spec (a : Aadeque α) (n : Nat) (hcap : 0 < a.cap) :
    2 * a.cap ≤ reserveCap a n ∧ a.len + n ≤ reserveCap a n ∧
      ∃ k, reserveCap a n = 2 * a.cap * 2 ^ k := by
  obtain ⟨h1, h2, k, hk⟩ := growLoop_spec (2 * a.cap) (a.len + n) (by omega)
  exact ⟨h1, h2, k, hk⟩

lemma reserve_len (a : Aadeque α) (n : Nat) : (aadeque_reserve a n).len = a.len := by
  unfold aadeque_reserve
  split_ifs <;> rfl

lemma reserve_inv (a : Aadeque α) (n : Nat) (h : AadequeInv a) :
    AadequeInv (aadeque_reserve a n) ∧ a.len + n ≤ (aadeque_reserve a n).cap ∧
      a.cap ≤ (aadeque_reserve a n).cap := by
  obtain ⟨⟨k, hk⟩, hmin, hlen, hoff⟩ := h
  have hpos : 0 < a.cap := by simp only [MIN_CAPACITY] at hmin; omega
  obtain ⟨hr1, hr2, j, hj⟩ := reserveCap_spec a n hpos
  have hrpow : ∃ k', reserveCap a n = 2 ^ k' := ⟨k + 1 + j, by rw [hj, hk]; ring⟩
  have hminr : MIN_CAPACITY ≤ reserveCap a n := by omega
  unfold aadeque_reserve
  split_ifs with hgrow hwrap
  · exact ⟨⟨hrpow, hminr,
      show a.len ≤ reserveCap a n by omega,
      show a.off + (reserveCap a n - a.cap) < reserveCap a n by omega⟩,
      show a.len + n ≤ reserveCap a n by omega,
      show a.cap ≤ reserveCap a n by omega⟩
  · exact ⟨⟨hrpow, hminr,
      show a.len ≤ reserveCap a n by omega,
      show a.off < reserveCap a n by omega⟩,
      show a.len + n ≤ reserveCap a n by omega,
      show a.cap ≤ reserveCap a n by omega⟩
  · exact ⟨⟨⟨k, hk⟩, hmin, hlen, hoff⟩, by omega, le_refl _⟩

lemma reserve_get (a : Aadeque α) (n : Nat) (h : AadequeInv a) (i : Nat) (hi : i < a.len) :
    aadeque_get (aadeque_reserve a n) i = aadeque_get a i := by
  obtain ⟨⟨k, hk⟩, hmin, hlen, hoff⟩ := h
  have hpos : 0 < a.cap := by simp only [MIN_CAPACITY] at hmin; omega
  obtain ⟨hr1, hr2, j, hj⟩ := reserveCap_spec a n hpos
  unfold aadeque_reserve
  split_ifs with hgrow hwrap
  · unfold aadeque_get aadeque_idx
    dsimp only
    split_ifs <;> first | rfl | (exact congrArg a.els (by omega)) | omega
  · unfold aadeque_get aadeque_idx
    dsimp only
    split_ifs <;> first | rfl | (exact congrArg a.els (by omega)) | omega
  · rfl

lemma make_space_after_spec (a : Aadeque α) (n : Nat) (h : AadequeInv a) :
    AadequeInv (aadeque_make_space_after a n) ∧
      (aadeque_make_space_after a n).len = a.len + n ∧
      ∀ i, i < a.len → aadeque_get (aadeque_make_space_after a n) i = aadeque_get a i := by
  obtain ⟨hInv, hfit, hle⟩ := reserve_inv a n h
  obtain ⟨hp, hm, hl, ho⟩ := hInv
  have hlen := reserve_len a n
  refine ⟨⟨hp, hm, by simpa [aadeque_make_space_after] using by omega, ho⟩, ?_, ?_⟩
  · simp [aadeque_make_space_after, hlen]
  · intro i hi
    have : aadeque_get (aadeque_make_space_after a n) i = aadeque_get (aadeque_reserve a n) i := rfl
    rw [this, reserve_get a n h i hi]

lemma make_space_before_spec (a : Aadeque α) (n : Nat) (h : AadequeInv a) :
    AadequeInv (aadeque_make_space_before a n) ∧
      (aadeque_make_space_before a n).len = a.len + n ∧
      ∀ i, i < a.len → aadeque_get (aadeque_make_space_before a n) (n + i) = aadeque_get a i := by
  obtain ⟨hInv, hfit, hle⟩ := reserve_inv a n h
  obtain ⟨hp, hm, hl, ho⟩ := hInv
  have hlen := reserve_len a n
  have hcpos : 0 < (aadeque_reserve a n).cap := by simp only [MIN_CAPACITY] at hm; omega
  constructor
  · refine ⟨hp, hm, ?_, ?_⟩
    · show (aadeque_reserve a n).len + n ≤ (aadeque_reserve a n).cap
      omega
    · show aadeque_idx (aadeque_reserve a n) ((aadeque_reserve a n).cap - n) <
        (aadeque_reserve a n).cap
      unfold aadeque_idx
      split <;> omega
  constructor
  · show (aadeque_reserve a n).len + n = a.len + n
    omega
  · intro i hi
    show aadeque_get { aadeque_reserve a n with
        off := aadeque_idx (aadeque_reserve a n) ((aadeque_reserve a n).cap - n),
        len := (aadeque_reserve a n).len + n } (n + i) = aadeque_get a i
    rw [← reserve_get a n h i hi]
    unfold aadeque_get aadeque_idx
    dsimp only
    have hiv : i < (aadeque_reserve a n).len := by omega
    split_ifs <;> first | rfl | (exact congrArg (aadeque_reserve a n).els (by omega)) | omega

/-! The claims. -/

/-- C1: on the wrapped state dequeWrap4 (cap 4, off 2, len 4), reserve 1 grows
the capacity to 8 and shifts the offset by the capacity delta, and the
logical contents survive, but the relocation memcpy copies cap - oldcap = 4
elements to slots 6..9 — slots 8 and 9 lie outside the new 8-slot block, so
the claim that no slot outside the block is written fails on the code. -/
theorem reserve_wrapped_grow_writes_out_of_bounds :
    (aadeque_reserve dequeWrap4 1).cap = 8 ∧
    (aadeque_reserve dequeWrap4 1).off = 6 ∧
    aadeque_toList (aadeque_reserve dequeWrap4 1) = aadeque_toList dequeWrap4 ∧
    aadeque_reserve_writes dequeWrap4 1 = (6, 4) ∧
    (aadeque_reserve dequeWrap4 1).cap <
      (aadeque_reserve_writes dequeWrap4 1).1 + (aadeque_reserve_writes dequeWrap4 1).2 := by
  decide

/-- C2: from the empty deque, push 4, push 5, unshift 3, unshift 2, unshift 1
yields length 5, a wrapped physical layout (off + len > cap), and contents
1, 2, 3, 4, 5. -/
theorem wrap_scenario_contents :
    dequeC2.len = 5 ∧ dequeC2.cap < dequeC2.off + dequeC2.len ∧
      aadeque_toList dequeC2 = [1, 2, 3, 4, 5] := by
  decide

/-- C3: aadeque_create 5 yields capacity 5, not the claimed next power of two
8 — the rounding loop is commented out in the source. -/
theorem create_capacity_not_rounded :
    (aadeque_create 5 : Aadeque Nat).cap = 5 ∧ (aadeque_create 5 : Aadeque Nat).cap ≠ 8 := by
  decide

/-- C4: slice (an operation of the claimed list) breaks the power-of-two
capacity invariant: slicing 5 elements out of the valid deque deque15 yields
a deque of capacity 5, because aadeque_create no longer rounds up. -/
theorem slice_breaks_capacity_invariant :
    AadequeInv deque15 ∧ (aadeque_slice deque15 0 5).cap = 5 ∧
      ¬ AadequeInv (aadeque_slice deque15 0 5) := by
  refine ⟨⟨⟨3, by decide⟩, by decide, by decide, by decide⟩, by decide, ?_⟩
  rintro ⟨⟨k, hk⟩, -, -, -⟩
  rw [show (aadeque_slice deque15 0 5).cap = 5 from by decide] at hk
  rcases k with _ | _ | _ | k
  · norm_num at hk
  · norm_num at hk
  · norm_num at hk
  · have h8 : 8 ≤ 2 ^ (k + 3) := by
      calc (8 : Nat) = 2 ^ 3 := by norm_num
      _ ≤ 2 ^ (k + 3) := Nat.pow_le_pow_right (by norm_num) (by omega)
    omega

/-- C5: the wrapped state left by deleting the last 2 of [1,2,3,4,5] (cap 8,
len 3, off 7) compacts to capacity 4 and offset 3 with contents still
[1, 2, 3]. -/
theorem compact_wrapped_shrink_case1 :
    dequeC5.cap = 8 ∧ dequeC5.len = 3 ∧ dequeC5.off = 7 ∧
      dequeC5.cap < dequeC5.off + dequeC5.len ∧
      aadeque_toList dequeC5 = [1, 2, 3] ∧
      (aadeque_compact dequeC5).cap = 4 ∧ (aadeque_compact dequeC5).off = 3 ∧
      aadeque_toList (aadeque_compact dequeC5) = [1, 2, 3] := by
  decide

/-- C6: deleting the first 2 of [1,2,3,4,5] (cap 8, off 0) leaves len 3 and
off 2 (straddling the middle, not wrapped); compacting yields cap 4, off 2,
a now-wrapped region, and contents [3, 4, 5]. -/
theorem compact_straddling_shrink_case3 :
    dequeC6.cap = 8 ∧ dequeC6.len = 3 ∧ dequeC6.off = 2 ∧
      dequeC6.off + dequeC6.len ≤ dequeC6.cap ∧
      dequeC6.off < dequeC6.cap / 2 ∧ dequeC6.cap / 2 < dequeC6.off + dequeC6.len ∧
      aadeque_toList dequeC6 = [3, 4, 5] ∧
      (aadeque_compact dequeC6).cap = 4 ∧ (aadeque_compact dequeC6).off = 2 ∧
      (aadeque_compact dequeC6).cap <
        (aadeque_compact dequeC6).off + (aadeque_compact dequeC6).len ∧
      aadeque_toList (aadeque_compact dequeC6) = [3, 4, 5] := by
  decide

/-- C8, the claim as stated is false: dequeIdx satisfies the invariants
(cap 4), yet aadeque_idx at index 8 returns slot 4, which is not below the
capacity — the single conditional subtraction is no bitmask. -/
theorem idx_unchecked_out_of_bounds :
    AadequeInv dequeIdx ∧ ¬ (aadeque_idx dequeIdx 8 < dequeIdx.cap) :=
  ⟨⟨⟨2, by decide⟩, by decide, by decide, by decide⟩, by decide⟩

/-- C8, amended: on a deque satisfying the invariants, the index translator
stays below the capacity for every index i < length (the documented
precondition of aadeque_idx). -/
theorem idx_in_bounds (a : Aadeque α) (i : Nat) (h : AadequeInv a) (hi : i < a.len) :
    aadeque_idx a i < a.cap := by
  obtain ⟨hp, hm, hl, ho⟩ := h
  unfold aadeque_idx
  split <;> omega

/-- Witness for idx_in_bounds at the wrapped state dequeWrap4 and index 0. -/
theorem idx_in_bounds_witness :
    AadequeInv dequeWrap4 ∧ 0 < dequeWrap4.len ∧ aadeque_idx dequeWrap4 0 < dequeWrap4.cap :=
  ⟨⟨⟨2, by decide⟩, by decide, by decide, by decide⟩, by decide,
    idx_in_bounds dequeWrap4 0 ⟨⟨2, by decide⟩, by decide, by decide, by decide⟩ (by decide)⟩

/-- C10: removing the only element by pop or by shift triggers compact_some
with length 0, which halves the capacity all the way down to MIN_CAPACITY
and no further. -/
theorem pop_shift_to_min_capacity (a : Aadeque α) (h : AadequeInv a) (h1 : a.len = 1) :
    (aadeque_pop a).2.cap = MIN_CAPACITY ∧ (aadeque_shift a).2.cap = MIN_CAPACITY := by
  obtain ⟨hp, hm, hl, ho⟩ := h
  have key : ∀ o, (aadeque_crop a o 0).cap = MIN_CAPACITY := by
    intro o
    rw [crop_cap]
    by_cases hcond : 4 * 0 ≤ a.cap ∧ MIN_CAPACITY < a.cap
    · rw [if_pos hcond]
      rcases (shrinkLoop_spec a.cap 0 hp hm).2.2.2.2 with h' | h'
      · omega
      · exact h'
    · rw [if_neg hcond]
      simp only [MIN_CAPACITY] at *
      omega
  constructor
  · show (aadeque_crop a 0 (a.len - 1)).cap = MIN_CAPACITY
    rw [h1]
    exact key 0
  · show (aadeque_crop a 1 (a.len - 1)).cap = MIN_CAPACITY
    rw [h1]
    exact key 1

/-- Witness for pop_shift_to_min_capacity: the capacity-16 singleton deque. -/
theorem pop_shift_to_min_capacity_witness :
    AadequeInv dequeC10 ∧ dequeC10.len = 1 ∧
      ((aadeque_pop dequeC10).2.cap = MIN_CAPACITY ∧
        (aadeque_shift dequeC10).2.cap = MIN_CAPACITY) :=
  ⟨⟨⟨4, by decide⟩, by decide, by decide, by decide⟩, by decide,
    pop_shift_to_min_capacity dequeC10
      ⟨⟨4, by decide⟩, by decide, by decide, by decide⟩ (by decide)⟩

/-- C7: a removal goes through aadeque_crop, whose automatic compact_some
shrinks the capacity (by repeated halving, reaching a power-of-two divisor
of the old capacity, never below MIN_CAPACITY) exactly when the resulting
length l is at most 25 percent of the capacity and the capacity is above the
minimum; when l is above 25 percent the capacity is unchanged.  The halving
stops as soon as the capacity is below 4*l or has reached MIN_CAPACITY. -/
theorem crop_shrink_threshold (a : Aadeque α) (o l : Nat) (h : AadequeInv a)
    (hol : o + l ≤ a.len) :
    ((aadeque_crop a o l).cap ≠ a.cap ↔ 4 * l ≤ a.cap ∧ MIN_CAPACITY < a.cap) ∧
      MIN_CAPACITY ≤ (aadeque_crop a o l).cap ∧
      (∃ k, (aadeque_crop a o l).cap * 2 ^ k = a.cap) ∧
      ((aadeque_crop a o l).cap = MIN_CAPACITY ∨ (aadeque_crop a o l).cap < 4 * l) ∧
      (a.cap < 4 * l → (aadeque_crop a o l).cap = a.cap) := by
  obtain ⟨hp, hm, hl, ho⟩ := h
  by_cases hcond : 4 * l ≤ a.cap ∧ MIN_CAPACITY < a.cap
  · have hlt := shrinkLoop_lt a.cap (4 * l) hp hcond.1 hcond.2
    obtain ⟨⟨j, hj⟩, hsm, hsle, hsp, hsexit⟩ := shrinkLoop_spec a.cap (4 * l) hp hm
    rw [crop_cap, if_pos hcond]
    refine ⟨⟨fun _ => hcond, fun _ => by omega⟩, hsm, ⟨j, hj⟩, by tauto, fun hc => by omega⟩
  · rw [crop_cap, if_neg hcond]
    refine ⟨⟨fun hne => absurd rfl hne, fun hc => absurd hc hcond⟩, hm, ⟨0, by simp⟩, ?_,
      fun _ => rfl⟩
    simp only [MIN_CAPACITY] at *
    omega

/-- Witness for crop_shrink_threshold: cropping the capacity-16, length-8
deque dequeC7 down to 2 elements shrinks the capacity to 4. -/
theorem crop_shrink_threshold_witness :
    AadequeInv dequeC7 ∧ 0 + 2 ≤ dequeC7.len ∧
      (((aadeque_crop dequeC7 0 2).cap ≠ dequeC7.cap ↔
          4 * 2 ≤ dequeC7.cap ∧ MIN_CAPACITY < dequeC7.cap) ∧
        MIN_CAPACITY ≤ (aadeque_crop dequeC7 0 2).cap ∧
        (∃ k, (aadeque_crop dequeC7 0 2).cap * 2 ^ k = dequeC7.cap) ∧
        ((aadeque_crop dequeC7 0 2).cap = MIN_CAPACITY ∨
          (aadeque_crop dequeC7 0 2).cap < 4 * 2) ∧
        (dequeC7.cap < 4 * 2 → (aadeque_crop dequeC7 0 2).cap = dequeC7.cap)) :=
  ⟨⟨⟨4, by decide⟩, by decide, by decide, by decide⟩, by decide,
    crop_shrink_threshold dequeC7 0 2
      ⟨⟨4, by decide⟩, by decide, by decide, by decide⟩ (by decide)⟩

/-- C9: appending a2 to a1 yields a1's old contents followed by a2's contents,
and prepending yields a2's contents followed by a1's old contents; a2 is only
read (the embedding passes it by value and returns only the new a1), matching
the C code, which never writes through a2 when the two deques are distinct. -/
theorem append_prepend_contents (a1 a2 : Aadeque α) (h1 : AadequeInv a1) :
    aadeque_toList (aadeque_append a1 a2) = aadeque_toList a1 ++ aadeque_toList a2 ∧
      aadeque_toList (aadeque_prepend a1 a2) = aadeque_toList a2 ++ aadeque_toList a1 := by
  constructor
  · obtain ⟨⟨hbp, hbm, hbl, hbo⟩, hblen, hbget⟩ := make_space_after_spec a1 a2.len h1
    have hflds := copyFrom_cap a2 (aadeque_make_space_after a1 a2.len) a1.len a2.len
    have hlen : (aadeque_append a1 a2).len = a1.len + a2.len := by
      rw [show aadeque_append a1 a2 =
        copyFrom a2 (aadeque_make_space_after a1 a2.len) a1.len a2.len from rfl,
        hflds.2.2, hblen]
    have hget : ∀ k, k < a1.len + a2.len →
        aadeque_get (aadeque_append a1 a2) k =
          if a1.len ≤ k ∧ k < a1.len + a2.len then aadeque_get a2 (k - a1.len)
          else aadeque_get a1 k := by
      intro k hk
      rw [show aadeque_append a1 a2 =
        copyFrom a2 (aadeque_make_space_after a1 a2.len) a1.len a2.len from rfl,
        copyFrom_get a2 (aadeque_make_space_after a1 a2.len) a1.len hbl hbo a2.len
          (by omega) k (by omega)]
      by_cases hin : a1.len ≤ k ∧ k < a1.len + a2.len
      · rw [if_pos hin, if_pos hin]
      · rw [if_neg hin, if_neg hin, hbget k (by omega)]
    unfold aadeque_toList
    rw [hlen, List.range_add, List.map_append, List.map_map]
    congr 1
    · apply List.map_congr_left
      intro i hi
      rw [List.mem_range] at hi
      rw [hget i (by omega), if_neg (by omega)]
    · apply List.map_congr_left
      intro j hj
      rw [List.mem_range] at hj
      show aadeque_get (aadeque_append a1 a2) (a1.len + j) = aadeque_get a2 j
      rw [hget (a1.len + j) (by omega), if_pos (by omega),
        show a1.len + j - a1.len = j by omega]
  · obtain ⟨⟨hbp, hbm, hbl, hbo⟩, hblen, hbget⟩ := make_space_before_spec a1 a2.len h1
    have hflds := copyFrom_cap a2 (aadeque_make_space_before a1 a2.len) 0 a2.len
    have hlen : (aadeque_prepend a1 a2).len = a2.len + a1.len := by
      rw [show aadeque_prepend a1 a2 =
        copyFrom a2 (aadeque_make_space_before a1 a2.len) 0 a2.len from rfl,
        hflds.2.2, hblen]
      omega
    have hget : ∀ k, k < a2.len + a1.len →
        aadeque_get (aadeque_prepend a1 a2) k =
          if k < a2.len then aadeque_get a2 k
          else aadeque_get (aadeque_make_space_before a1 a2.len) k := by
      intro k hk
      rw [show aadeque_prepend a1 a2 =
        copyFrom a2 (aadeque_make_space_before a1 a2.len) 0 a2.len from rfl,
        copyFrom_get a2 (aadeque_make_space_before a1 a2.len) 0 hbl hbo a2.len
          (by omega) k (by omega)]
      by_cases hin : k < a2.len
      · rw [if_pos (by omega : 0 ≤ k ∧ k < 0 + a2.len), if_pos hin,
          show k - 0 = k by omega]
      · rw [if_neg (by omega), if_neg hin]
    unfold aadeque_toList
    rw [hlen, List.range_add, List.map_append, List.map_map]
    congr 1
    · apply List.map_congr_left
      intro i hi
      rw [List.mem_range] at hi
      rw [hget i (by omega), if_pos hi]
    · apply List.map_congr_left
      intro j hj
      rw [List.mem_range] at hj
      show aadeque_get (aadeque_prepend a1 a2) (a2.len + j) = aadeque_get a1 j
      rw [hget (a2.len + j) (by omega), if_neg (by omega)]
      exact hbget j hj

/-- Witness for append_prepend_contents on the deques of the append test:
[1,2,3] and [4,5]. -/
theorem append_prepend_contents_witness :
    AadequeInv a1C9 ∧
      (aadeque_toList (aadeque_append a1C9 a2C9) =
          aadeque_toList a1C9 ++ aadeque_toList a2C9 ∧
        aadeque_toList (aadeque_prepend a1C9 a2C9) =
          aadeque_toList a2C9 ++ aadeque_toList a1C9) :=
  ⟨⟨⟨2, by decide⟩, by decide, by decide, by decide⟩,
    append_prepend_contents a1C9 a2C9 ⟨⟨2, by decide⟩, by decide, by decide, by decide⟩⟩
